import Mathlib

/-!
Shallow embedding of the real-time subtitle pipeline in `src/app.py`.

The program captures audio frames, classifies each frame with a VAD,
accumulates voiced frames into bounded segments (`_capture_loop`,
lines 51-68), transcribes each segment and translates the transcript
(`_transcribe_loop`, lines 70-82, and `translate_text`, lines 28-35),
and displays the resulting strings (`_gui_loop`).

Text is modelled as `List Char`; Python's `str.strip()` becomes `strip`
below; PCM samples are modelled as `Int` and normalized audio as `Rat`
(the float values occurring here, quotients of 16-bit integers by
32768, are exactly representable in float32, so rational arithmetic is
exact for the properties proved).  Frames are kept abstract (`α`):
the segmenter never inspects frame contents, only the VAD bit.
-/

/-- Sample rate constant, `SAMPLERATE = 16000` (app.py line 16). -/
def SAMPLERATE : Nat := 16000

/-- Frame duration in milliseconds, `FRAME_MS = 30` (app.py line 17). -/
def FRAME_MS : Nat := 30

/-- Samples per frame, `FRAME_SIZE = int(SAMPLERATE * FRAME_MS / 1000)` (app.py line 18). -/
def FRAME_SIZE : Nat := SAMPLERATE * FRAME_MS / 1000

/-- Maximum frames per emitted chunk, `MAX_CHUNK_FRAMES = int(10_000 / FRAME_MS)` (app.py line 19). -/
def MAX_CHUNK_FRAMES : Nat := 10000 / FRAME_MS

/-- One iteration of the segmenter body in `_capture_loop` (app.py lines 61-68),
for a single frame `f` with VAD classification `voiced`, acting on the
accumulated buffer `acc` (`voiced_frames`).  Returns the new buffer and the
emitted segment, if any.  A segment is the list of its frames (the source
emits `b"".join(voiced_frames)`; the join preserves the frame count, which is
what the claims speak about). -/
def segStep {α : Type} (maxF : Nat) (acc : List α) (voiced : Bool) (f : α) :
    List α × Option (List α) :=
  if voiced then
    let acc2 := acc ++ [f]
    if maxF ≤ acc2.length then ([], some acc2) else (acc2, none)
  else if acc.isEmpty then (acc, none)
  else ([], some acc)

/-- The segmenter run over a finite prefix of the frame stream: each input item
is a frame paired with its VAD classification, in arrival order.  Returns the
final buffer and the list of emitted segments in emission order. -/
def segRun {α : Type} (maxF : Nat) (acc : List α) :
    List (Bool × α) → List α × List (List α)
  | [] => (acc, [])
  | (v, f) :: rest =>
    let s := segStep maxF acc v f
    let r := segRun maxF s.1 rest
    (r.1, s.2.toList ++ r.2)

/-- A run of frames all classified voiced. -/
def voicedRun {α : Type} (fs : List α) : List (Bool × α) :=
  fs.map (fun f => (true, f))

/-- A run of frames all classified non-voiced. -/
def silentRun {α : Type} (fs : List α) : List (Bool × α) :=
  fs.map (fun f => (false, f))

/-- Text, modelled as a list of characters. -/
abbrev Str := List Char

/-- Whitespace as recognized by Python's `str.strip()` on the ASCII range
(space, tab, newline, carriage return, vertical tab, form feed). -/
def isWsChar (c : Char) : Bool :=
  c = ' ' || c = '\t' || c = '\n' || c = '\r' || c = '\x0b' || c = '\x0c'

/-- Python `str.strip()`: remove leading and trailing whitespace. -/
def strip (s : Str) : Str :=
  ((s.dropWhile isWsChar).reverse.dropWhile isWsChar).reverse

/-- The ASR half of one `_transcribe_loop` iteration (app.py lines 74-77):
`text = "".join(seg.text for seg in segments).strip()` followed by
`if text:`.  Given the list of text fragments returned by the ASR capability,
returns the transcript to forward, or `none` when the stripped concatenation
is empty. -/
def transcriptionStage (frags : List Str) : Option Str :=
  let text := strip frags.flatten
  if text = [] then none else some text

/-- The error marker produced at app.py line 82: `f"[Translation error: {exc}]"`. -/
def translationErrorText (e : Str) : Str :=
  "[Translation error: ".toList ++ e ++ "]".toList

/-- `translate_text` (app.py lines 28-35): invokes the translation capability
and strips the returned content.  The capability result is modelled as
`Except`: `error` when the API call raises, in which case `translate_text`
itself raises (there is no handler inside it). -/
def translate_text (capResult : Except Str Str) : Except Str Str :=
  match capResult with
  | Except.ok content => Except.ok (strip content)
  | Except.error e => Except.error e

/-- The translation half of one `_transcribe_loop` iteration
(app.py lines 78-82): `try: ... translate_text ... except Exception as exc:`;
on success the (stripped) translation is enqueued, on failure the bracketed
error marker is enqueued.  Total: the except-clause catches every exception. -/
def translationStage (capResult : Except Str Str) : Str :=
  match translate_text capResult with
  | Except.ok t => t
  | Except.error e => translationErrorText e

/-- One full iteration of `_transcribe_loop` (app.py lines 73-82) after a
chunk has been dequeued, as a function of the ASR outcome and the translation
capability.  `Except.error` in the result means an exception propagates out of
the loop body (nothing in lines 74-77 catches it), terminating the thread;
`Except.ok none` means nothing was enqueued (empty transcript);
`Except.ok (some d)` means exactly the display text `d` was enqueued. -/
def transcribeLoopStep (asrResult : Except Str (List Str))
    (translate : Str → Except Str Str) : Except Str (Option Str) :=
  match asrResult with
  | Except.error e => Except.error e
  | Except.ok frags =>
    match transcriptionStage frags with
    | none => Except.ok none
    | some text => Except.ok (some (translationStage (translate text)))

/-- The display text produced for one segment when the ASR call returns
normally: `none` when the transcript is empty and nothing is forwarded. -/
def stageOutput {σ : Type} (asr : σ → List Str) (translate : Str → Except Str Str)
    (s : σ) : Option Str :=
  (transcriptionStage (asr s)).map (fun t => translationStage (translate t))

/-- The sequence of display texts enqueued to `text_queue` when
`_transcribe_loop` consumes the segments `segs` in queue (emission) order,
assuming each ASR call returns normally.  The loop dequeues one segment at a
time and enqueues at most one display text for it before touching the next
segment, so the output order is the filterMap of the input order. -/
def pipelineOutputs {σ : Type} (asr : σ → List Str)
    (translate : Str → Except Str Str) (segs : List σ) : List Str :=
  segs.filterMap (stageOutput asr translate)

/-- Program position of the `_transcribe_loop` thread: at the `while
self.running` check, blocked in `self.audio_queue.get()`, or exited. -/
inductive LoopPos : Type where
  | atTop : LoopPos
  | waiting : LoopPos
  | exited : LoopPos
deriving DecidableEq

/-- State of the `_transcribe_loop` thread together with the shared stop flag
(`self.running`) and the pending contents of `audio_queue`. -/
structure TSState (σ : Type) where
  running : Bool
  queue : List σ
  pos : LoopPos
deriving DecidableEq

/-- One scheduler step of `_transcribe_loop` (app.py lines 72-73): the flag is
consulted only at the top of the loop; `queue.Queue.get()` (called with no
timeout) returns only when an item is available and never observes the flag,
so with an empty queue the thread stays blocked; after processing an item the
thread returns to the top of the loop.  Processing itself is elided: it
changes neither the flag nor `audio_queue`. -/
def tsStep {σ : Type} (s : TSState σ) : TSState σ :=
  match s.pos with
  | LoopPos.exited => s
  | LoopPos.atTop =>
    if s.running then { s with pos := LoopPos.waiting }
    else { s with pos := LoopPos.exited }
  | LoopPos.waiting =>
    match s.queue with
    | [] => s
    | _ :: rest => { s with queue := rest, pos := LoopPos.atTop }

/-- The transcription loop blocked on an empty queue after the stop flag has
been cleared by `on_close` (app.py lines 105-107). -/
def stoppedWaitingState : TSState Nat :=
  { running := false, queue := [], pos := LoopPos.waiting }

/-- PCM16-to-float normalization in `_transcribe_loop` (app.py line 74):
`np.frombuffer(chunk, dtype=np.int16).astype(np.float32) / 32768.0`. -/
def pcm16ToFloat (s : Int) : Rat := (s : Rat) / 32768

/-- The whole chunk normalized sample-by-sample (app.py line 74). -/
def chunkToFloat (samples : List Int) : List Rat :=
  samples.map pcm16ToFloat

/-- Truncation toward zero, the C float-to-integer conversion applied by
`astype(np.int16)`. -/
def truncQ (x : Rat) : Int := if 0 ≤ x then ⌊x⌋ else ⌈x⌉

/-- Reduction of an integer into the int16 range by wrapping modulo 2^16, the
behaviour of numpy's `astype(np.int16)` on an out-of-range value (the value is
truncated to an integer and its low 16 bits reinterpreted as signed). -/
def wrap16 (v : Int) : Int := (v + 32768) % 65536 - 32768

/-- Float-to-PCM16 conversion in `_capture_loop` (app.py line 60):
`(mono * 32768).astype(np.int16)`, for one sample. -/
def floatToPcm16 (x : Rat) : Int := wrap16 (truncQ (x * 32768))

/-- The outcome of an ASR call that raises, used to exhibit the uncaught path
in `_transcribe_loop`. -/
def asrFailureOutcome : Except Str (List Str) := Except.error "asr crashed".toList

/-! Helper lemmas about the segmenter. -/

/-- Appending a voiced frame strictly below the cap only grows the buffer. -/
theorem segStep_voiced_lt {α : Type} (maxF : Nat) (acc : List α) (f : α)
    (h : acc.length + 1 < maxF) : segStep maxF acc true f = (acc ++ [f], none) := by
  have hc : ¬ maxF ≤ (acc ++ [f]).length := by
    simp only [List.length_append, List.length_cons, List.length_nil]
    omega
  simp [segStep, hc]
  omega

/-- Appending a voiced frame that reaches the cap emits and resets. -/
theorem segStep_voiced_cap {α : Type} (maxF : Nat) (acc : List α) (f : α)
    (h : maxF ≤ acc.length + 1) : segStep maxF acc true f = ([], some (acc ++ [f])) := by
  have hc : maxF ≤ (acc ++ [f]).length := by
    simp only [List.length_append, List.length_cons, List.length_nil]
    omega
  simp [segStep, hc]
  omega

/-- A non-voiced frame on an empty buffer is a no-op. -/
theorem segStep_silent_nil {α : Type} (maxF : Nat) (f : α) :
    segStep maxF [] false f = ([], none) := rfl

/-- A non-voiced frame on a non-empty buffer flushes it. -/
theorem segStep_silent_cons {α : Type} (maxF : Nat) (acc : List α) (f : α)
    (h : acc ≠ []) : segStep maxF acc false f = ([], some acc) := by
  cases acc with
  | nil => exact absurd rfl h
  | cons a t => rfl

/-- Unfolding one frame of a segmenter run. -/
theorem segRun_cons {α : Type} (maxF : Nat) (acc : List α) (v : Bool) (f : α)
    (rest : List (Bool × α)) :
    segRun maxF acc ((v, f) :: rest) =
      ((segRun maxF (segStep maxF acc v f).1 rest).1,
       (segStep maxF acc v f).2.toList ++ (segRun maxF (segStep maxF acc v f).1 rest).2) := rfl

/-- A voiced run that stays below the cap accumulates without emitting. -/
theorem segRun_voiced_small {α : Type} (maxF : Nat) (fs acc : List α)
    (h : acc.length + fs.length < maxF) :
    segRun maxF acc (voicedRun fs) = (acc ++ fs, []) := by
  induction fs generalizing acc with
  | nil => simp [voicedRun, segRun]
  | cons f rest ih =>
    have hstep : segStep maxF acc true f = (acc ++ [f], none) := by
      apply segStep_voiced_lt
      simp only [List.length_cons] at h
      omega
    have hrec : segRun maxF (acc ++ [f]) (voicedRun rest) = (acc ++ [f] ++ rest, []) := by
      apply ih
      simp only [List.length_append, List.length_cons, List.length_nil]
      simp only [List.length_cons] at h
      omega
    simp [voicedRun] at hrec ⊢
    rw [segRun_cons, hstep, hrec]
    simp

/-- A voiced run that crosses the cap once emits exactly the first `maxF`
frames and keeps accumulating the remainder. -/
theorem segRun_voiced_capped {α : Type} (maxF : Nat) (fs acc : List α)
    (hacc : acc.length < maxF) (hlo : maxF ≤ acc.length + fs.length)
    (hhi : acc.length + fs.length < 2 * maxF) :
    segRun maxF acc (voicedRun fs) =
      ((acc ++ fs).drop maxF, [(acc ++ fs).take maxF]) := by
  induction fs generalizing acc with
  | nil =>
    simp only [List.length_nil, Nat.add_zero] at hlo
    omega
  | cons f rest ih =>
    simp only [List.length_cons] at hlo hhi
    by_cases hcap : maxF ≤ acc.length + 1
    · have heq : acc.length + 1 = maxF := by omega
      have hstep : segStep maxF acc true f = ([], some (acc ++ [f])) :=
        segStep_voiced_cap maxF acc f hcap
      have hrest : segRun maxF ([] : List α) (voicedRun rest) = ([] ++ rest, []) := by
        apply segRun_voiced_small
        simp only [List.length_nil]
        omega
      have hlen : (acc ++ [f]).length = maxF := by
        simp only [List.length_append, List.length_cons, List.length_nil]
        omega
      simp only [voicedRun, List.map_cons]
      rw [segRun_cons, hstep]
      simp only [voicedRun] at hrest
      rw [hrest]
      have hassoc : acc ++ f :: rest = (acc ++ [f]) ++ rest := by simp
      rw [hassoc, List.take_left' hlen, List.drop_left' hlen]
      simp
    · have hstep : segStep maxF acc true f = (acc ++ [f], none) := by
        apply segStep_voiced_lt; omega
      have hrec := ih (acc ++ [f])
        (by simp only [List.length_append, List.length_cons, List.length_nil]; omega)
        (by simp only [List.length_append, List.length_cons, List.length_nil]; omega)
        (by simp only [List.length_append, List.length_cons, List.length_nil]; omega)
      simp only [voicedRun, List.map_cons]
      rw [segRun_cons, hstep]
      simp only [voicedRun] at hrec
      rw [hrec]
      simp

/-- A segmenter run splits over list append: the second half starts from the
buffer the first half left behind, and emissions concatenate in order. -/
theorem segRun_append {α : Type} (maxF : Nat) (acc : List α)
    (l1 l2 : List (Bool × α)) :
    segRun maxF acc (l1 ++ l2) =
      ((segRun maxF (segRun maxF acc l1).1 l2).1,
       (segRun maxF acc l1).2 ++ (segRun maxF (segRun maxF acc l1).1 l2).2) := by
  induction l1 generalizing acc with
  | nil => simp [segRun]
  | cons p rest ih =>
    obtain ⟨v, f⟩ := p
    simp only [List.cons_append]
    rw [segRun_cons, segRun_cons, ih]
    simp [List.append_assoc]

/-- Segmenter invariant: starting from a buffer below the cap, every emitted
segment has between 1 and `maxF` frames and the buffer stays below the cap. -/
theorem segRun_inv {α : Type} (maxF : Nat) (input : List (Bool × α)) (acc : List α)
    (hacc : acc.length < maxF) :
    (∀ s ∈ (segRun maxF acc input).2, 1 ≤ s.length ∧ s.length ≤ maxF) ∧
    (segRun maxF acc input).1.length < maxF := by
  induction input generalizing acc with
  | nil => simpa [segRun] using hacc
  | cons p rest ih =>
    obtain ⟨v, f⟩ := p
    rw [segRun_cons]
    cases v with
    | true =>
      by_cases hcap : maxF ≤ acc.length + 1
      · rw [segStep_voiced_cap maxF acc f hcap]
        have h0 : ([] : List α).length < maxF := by simp; omega
        obtain ⟨ih1, ih2⟩ := ih [] h0
        refine ⟨?_, by simpa using ih2⟩
        intro s hs
        simp only [Option.toList_some, List.mem_append, List.mem_singleton] at hs
        rcases hs with hs | hs
        · subst hs
          simp only [List.length_append, List.length_cons, List.length_nil]
          omega
        · exact ih1 s hs
      · rw [segStep_voiced_lt maxF acc f (by omega)]
        have h1 : (acc ++ [f]).length < maxF := by
          simp only [List.length_append, List.length_cons, List.length_nil]; omega
        obtain ⟨ih1, ih2⟩ := ih (acc ++ [f]) h1
        exact ⟨by simpa using ih1, by simpa using ih2⟩
    | false =>
      cases acc with
      | nil =>
        rw [segStep_silent_nil]
        obtain ⟨ih1, ih2⟩ := ih [] (by simpa using hacc)
        exact ⟨by simpa using ih1, by simpa using ih2⟩
      | cons a t =>
        rw [segStep_silent_cons maxF (a :: t) f (by simp)]
        have h0 : ([] : List α).length < maxF := by simp; omega
        obtain ⟨ih1, ih2⟩ := ih [] h0
        refine ⟨?_, by simpa using ih2⟩
        intro s hs
        simp only [Option.toList_some, List.mem_append, List.mem_singleton] at hs
        rcases hs with hs | hs
        · subst hs
          simp only [List.length_cons] at hacc ⊢
          omega
        · exact ih1 s hs

/-- Pure silence from an empty buffer emits nothing and leaves it empty. -/
theorem segRun_silent {α : Type} (maxF : Nat) (fs : List α) :
    segRun maxF [] (silentRun fs) = ([], []) := by
  induction fs with
  | nil => simp [silentRun, segRun]
  | cons f rest ih =>
    simp only [silentRun, List.map_cons]
    rw [segRun_cons, segStep_silent_nil]
    simp only [silentRun] at ih
    rw [ih]
    simp

/-- The program's cap evaluates to 333 frames (10 seconds of 30 ms frames). -/
theorem MAX_CHUNK_FRAMES_eq : MAX_CHUNK_FRAMES = 333 := rfl

/-! Helper lemmas about `strip`. -/

/-- Stripping an all-whitespace string yields the empty string. -/
theorem strip_eq_nil_of_ws (s : Str) (h : ∀ c ∈ s, isWsChar c = true) :
    strip s = [] := by
  have h1 : s.dropWhile isWsChar = [] := List.dropWhile_eq_nil_iff.mpr h
  simp [strip, h1]

/-- A non-empty stripped string contains a non-whitespace character. -/
theorem strip_mem_not_ws (s : Str) (h : strip s ≠ []) :
    ∃ c ∈ strip s, isWsChar c = false := by
  have hbne : (s.dropWhile isWsChar).reverse.dropWhile isWsChar ≠ [] := by
    intro hnil
    apply h
    simp [strip, hnil]
  refine ⟨((s.dropWhile isWsChar).reverse.dropWhile isWsChar).head hbne, ?_,
    List.head_dropWhile_not isWsChar _ hbne⟩
  have hm : ((s.dropWhile isWsChar).reverse.dropWhile isWsChar).head hbne ∈
      (s.dropWhile isWsChar).reverse.dropWhile isWsChar := List.head_mem hbne
  simp only [strip]
  exact List.mem_reverse.mpr hm

/-! Claim theorems. -/

/-- C1: a voiced frame is appended to the accumulating buffer; when the buffer
reaches the cap (`MAX_CHUNK_FRAMES` in the program, here any positive `maxF`),
the segmenter emits the buffer as a segment of exactly `maxF` frames and
resets to empty, so a voiced run longer than `maxF` yields one full-cap
segment while the remaining frames keep accumulating as a new segment. -/
theorem segmenter_cap_emits_full_segment {α : Type} (maxF k : Nat)
    (fs acc1 acc2 : List α) (f1 f2 : α)
    (h1 : acc1.length + 1 < maxF) (h2 : acc2.length + 1 = maxF)
    (hk : k < maxF) (hlen : fs.length = maxF + k) :
    segStep maxF acc1 true f1 = (acc1 ++ [f1], none) ∧
    (segStep maxF acc2 true f2 = ([], some (acc2 ++ [f2])) ∧
      (acc2 ++ [f2]).length = maxF) ∧
    (segRun maxF [] (voicedRun fs) = (fs.drop maxF, [fs.take maxF]) ∧
      (fs.take maxF).length = maxF) := by
  refine ⟨segStep_voiced_lt maxF acc1 f1 h1, ⟨?_, ?_⟩, ?_, ?_⟩
  · exact segStep_voiced_cap maxF acc2 f2 (by omega)
  · simp only [List.length_append, List.length_cons, List.length_nil]; omega
  · have := segRun_voiced_capped maxF fs []
      (by simp; omega) (by simp; omega) (by simp; omega)
    simpa using this
  · simp only [List.length_take]
    omega

/-- Witness for C1 at cap 2 and a voiced run of 3 frames. -/
theorem segmenter_cap_emits_full_segment_witness :
    segStep 2 ([] : List Nat) true 5 = ([5], none) ∧
    (segStep 2 [7] true 8 = ([], some [7, 8]) ∧ ([7] ++ [8]).length = 2) ∧
    (segRun 2 [] (voicedRun [10, 20, 30]) = ([10, 20, 30].drop 2, [[10, 20, 30].take 2]) ∧
      ([10, 20, 30].take 2).length = 2) :=
  segmenter_cap_emits_full_segment 2 1 [10, 20, 30] [] [7] 5 8
    (by decide) (by decide) (by decide) (by decide)

/-- C2: a non-voiced frame arriving on a non-empty buffer flushes exactly one
segment (the buffer contents) and resets the buffer; a non-voiced frame on an
empty buffer emits nothing and leaves the state unchanged.  In particular a
single silence frame after a voiced run of `fs` yields exactly the one
segment `fs`. -/
theorem segmenter_silence_flushes_once {α : Type} (maxF : Nat)
    (fs acc : List α) (g g2 g3 : α)
    (hne : fs ≠ []) (hlen : fs.length < maxF) (hacc : acc ≠ []) :
    segStep maxF acc false g3 = ([], some acc) ∧
    segStep maxF [] false g2 = ([], none) ∧
    segRun maxF [] (voicedRun fs ++ [(false, g)]) = ([], [fs]) := by
  refine ⟨segStep_silent_cons maxF acc g3 hacc, segStep_silent_nil maxF g2, ?_⟩
  rw [segRun_append]
  have hsmall : segRun maxF ([] : List α) (voicedRun fs) = ([] ++ fs, []) :=
    segRun_voiced_small maxF fs [] (by simp; omega)
  rw [hsmall]
  simp only [List.nil_append]
  rw [segRun_cons, segStep_silent_cons maxF fs g hne]
  simp [segRun]

/-- Witness for C2 at cap 3 with the voiced run `[1, 2]`. -/
theorem segmenter_silence_flushes_once_witness :
    segStep 3 [4] false 9 = ([], some [4]) ∧
    segStep 3 ([] : List Nat) false 9 = ([], none) ∧
    segRun 3 [] (voicedRun [1, 2] ++ [(false, 9)]) = ([], [[1, 2]]) :=
  segmenter_silence_flushes_once 3 [1, 2] [4] 9 9 9
    (by decide) (by decide) (by decide)

/-- C3: for every frame sequence and per-frame classification, every emitted
segment has at least 1 and at most `maxF` frames (the program runs with
`maxF = MAX_CHUNK_FRAMES = 333 > 0`), and an all-non-voiced sequence
produces no segments at all. -/
theorem segmenter_segment_bounds {α : Type} (maxF : Nat)
    (input : List (Bool × α)) (fs : List α) (hmax : 0 < maxF) :
    (∀ s ∈ (segRun maxF [] input).2, 1 ≤ s.length ∧ s.length ≤ maxF) ∧
    (segRun maxF [] (silentRun fs)).2 = [] := by
  refine ⟨(segRun_inv maxF input [] (by simpa using hmax)).1, ?_⟩
  rw [segRun_silent]

/-- Witness for C3 at cap 2 on a mixed classification stream. -/
theorem segmenter_segment_bounds_witness :
    (∀ s ∈ (segRun 2 [] [(true, 1), (true, 2), (true, 3), (false, 4)]).2,
      1 ≤ s.length ∧ s.length ≤ 2) ∧
    (segRun 2 [] (silentRun [5, 6, 7])).2 = [] :=
  segmenter_segment_bounds 2 [(true, 1), (true, 2), (true, 3), (false, 4)]
    [5, 6, 7] (by decide)

/-- C4: for every non-empty transcript consumed by the translation stage,
exactly one display text is enqueued: the stripped translated string on
success, the bracketed marker `[Translation error: ...]` embedding the reason
on any failure of the translation capability; the failure never escapes the
loop iteration. -/
theorem translation_stage_exactly_one_display (frags : List Str) (text : Str)
    (translate : Str → Except Str Str)
    (htext : transcriptionStage frags = some text) :
    (∃ d, transcribeLoopStep (Except.ok frags) translate = Except.ok (some d)) ∧
    (∀ s, translate text = Except.ok s →
      transcribeLoopStep (Except.ok frags) translate = Except.ok (some (strip s))) ∧
    (∀ e, translate text = Except.error e →
      transcribeLoopStep (Except.ok frags) translate =
        Except.ok (some (translationErrorText e))) := by
  refine ⟨⟨translationStage (translate text), ?_⟩, ?_, ?_⟩
  · simp [transcribeLoopStep, htext]
  · intro s hs
    simp [transcribeLoopStep, htext, translationStage, translate_text, hs]
  · intro e he
    simp [transcribeLoopStep, htext, translationStage, translate_text, he]

/-- Witness for C4 on the transcript produced from the fragment `"hi "`. -/
theorem translation_stage_exactly_one_display_witness :
    (∃ d, transcribeLoopStep (Except.ok ["hi ".toList])
      (fun t => Except.ok (t ++ t)) = Except.ok (some d)) ∧
    (∀ s, (fun (t : Str) => Except.ok (ε := Str) (t ++ t)) "hi".toList = Except.ok s →
      transcribeLoopStep (Except.ok ["hi ".toList]) (fun t => Except.ok (t ++ t)) =
        Except.ok (some (strip s))) ∧
    (∀ e, (fun (t : Str) => Except.ok (ε := Str) (t ++ t)) "hi".toList = Except.error e →
      transcribeLoopStep (Except.ok ["hi ".toList]) (fun t => Except.ok (t ++ t)) =
        Except.ok (some (translationErrorText e))) :=
  translation_stage_exactly_one_display ["hi ".toList] "hi".toList
    (fun t => Except.ok (t ++ t)) (by decide)

/-- C5: the transcription stage concatenates the ASR fragments, strips
surrounding whitespace, and forwards the result only if non-empty: any
forwarded transcript equals the stripped concatenation, is non-empty and
contains a non-whitespace character, while a whitespace-only ASR result is
discarded and nothing is forwarded. -/
theorem transcription_stage_forwards_nonempty (frags : List Str) :
    (∀ t, transcriptionStage frags = some t →
      t = strip frags.flatten ∧ t ≠ [] ∧ ∃ c ∈ t, isWsChar c = false) ∧
    ((∀ c ∈ frags.flatten, isWsChar c = true) → transcriptionStage frags = none) := by
  constructor
  · intro t ht
    by_cases h : strip frags.flatten = []
    · simp [transcriptionStage, h] at ht
    · simp only [transcriptionStage, if_neg h] at ht
      obtain rfl : strip frags.flatten = t := Option.some.inj ht
      exact ⟨rfl, h, strip_mem_not_ws _ h⟩
  · intro h
    simp [transcriptionStage, strip_eq_nil_of_ws _ h]

/-- Witness for C5: the fragments `" a "` forward the transcript `"a"`, and
the whitespace-only fragments are discarded. -/
theorem transcription_stage_forwards_nonempty_witness :
    ("a".toList = strip ([" a ".toList] : List Str).flatten ∧ "a".toList ≠ [] ∧
      ∃ c ∈ "a".toList, isWsChar c = false) ∧
    transcriptionStage [" ".toList, "\t".toList] = none :=
  ⟨(transcription_stage_forwards_nonempty [" a ".toList]).1 "a".toList (by decide),
   (transcription_stage_forwards_nonempty [" ".toList, "\t".toList]).2 (by decide)⟩

/-- C6: the pipeline preserves FIFO order end-to-end: if segment `s1` is
emitted before segment `s2` (the two-element list is a sublist of the emission
order) and each yields a display text, then the display text of `s1` is
enqueued to the display sink before that of `s2`. -/
theorem pipeline_preserves_fifo {σ : Type} (asr : σ → List Str)
    (translate : Str → Except Str Str) (segs : List σ) (s1 s2 : σ) (d1 d2 : Str)
    (horder : List.Sublist [s1, s2] segs)
    (h1 : stageOutput asr translate s1 = some d1)
    (h2 : stageOutput asr translate s2 = some d2) :
    List.Sublist [d1, d2] (pipelineOutputs asr translate segs) := by
  have h := horder.filterMap (stageOutput asr translate)
  rwa [show List.filterMap (stageOutput asr translate) [s1, s2] = [d1, d2] by
    simp [List.filterMap, h1, h2]] at h

/-- Witness for C6 on two concrete segments passed through identity stages. -/
theorem pipeline_preserves_fifo_witness :
    List.Sublist ["a".toList, "b".toList]
      (pipelineOutputs (fun s => [s]) (fun t => Except.ok t)
        ["a".toList, "b".toList]) :=
  pipeline_preserves_fifo (fun s => [s]) (fun t => Except.ok t)
    ["a".toList, "b".toList] "a".toList "b".toList "a".toList "b".toList
    (List.Sublist.refl _) (by decide) (by decide)

/-- C7 counterexample: an ASR failure is not converted into a display text;
the loop iteration propagates it (the `try` at app.py line 78 starts only
after `model.transcribe` at line 75 has returned), so the stage loop exits. -/
theorem asr_error_escapes_loop :
    transcribeLoopStep asrFailureOutcome (fun t => Except.ok t) =
      Except.error "asr crashed".toList ∧
    (transcribeLoopStep asrFailureOutcome (fun t => Except.ok t)).isOk = false :=
  ⟨rfl, rfl⟩

/-- C7 amended: an error raised by the translation capability is converted
into a display text and never terminates the loop iteration, but an error
raised by the ASR capability propagates out of the loop body uncaught and
terminates the transcription stage. -/
theorem loop_error_containment_amended (frags : List Str) (e : Str)
    (translate : Str → Except Str Str) :
    (∃ o, transcribeLoopStep (Except.ok frags) translate = Except.ok o) ∧
    transcribeLoopStep (Except.error e) translate = Except.error e := by
  refine ⟨?_, rfl⟩
  simp only [transcribeLoopStep]
  cases transcriptionStage frags with
  | none => exact ⟨none, rfl⟩
  | some text => exact ⟨some (translationStage (translate text)), rfl⟩

/-- C8 counterexample: with the stop flag cleared and the queue empty, the
transcription loop blocked in `audio_queue.get()` is a fixed point of the
scheduler step: it never reaches the exited state, contradicting that a
stopped loop with no item available exits rather than blocking. -/
theorem stopped_empty_wait_blocks :
    tsStep stoppedWaitingState = stoppedWaitingState ∧
    stoppedWaitingState.pos ≠ LoopPos.exited := ⟨rfl, by decide⟩

/-- C8 amended: the transcription loop observes the stop flag only at its
top-of-loop check, where it exits; a loop blocked in `audio_queue.get()` on an
empty queue does not observe the flag and remains blocked for any number of
steps (in the program the thread is a daemon and dies with the process); if an
item is available the wait returns, the item is processed, and the loop exits
at the next top-of-loop check. -/
theorem stop_flag_exit_amended (σ : Type) (q rest : List σ) (x : σ) (n : Nat) :
    tsStep { running := false, queue := q, pos := LoopPos.atTop } =
      { running := false, queue := q, pos := LoopPos.exited } ∧
    (tsStep^[n] { running := false, queue := ([] : List σ), pos := LoopPos.waiting }) =
      { running := false, queue := ([] : List σ), pos := LoopPos.waiting } ∧
    tsStep (tsStep { running := false, queue := x :: rest, pos := LoopPos.waiting }) =
      { running := false, queue := rest, pos := LoopPos.exited } := by
  refine ⟨rfl, ?_, rfl⟩
  induction n with
  | zero => rfl
  | succ m ih => rw [Function.iterate_succ_apply, show
      tsStep { running := false, queue := ([] : List σ), pos := LoopPos.waiting } =
        { running := false, queue := ([] : List σ), pos := LoopPos.waiting } from rfl, ih]

/-- C9: every 16-bit signed PCM sample `s` is converted to `s / 32768` before
the ASR invocation, so every converted sample lies in the half-open
interval from -1 inclusive to 1 exclusive. -/
theorem pcm16_normalization_in_range (samples : List Int)
    (h : ∀ s ∈ samples, -32768 ≤ s ∧ s ≤ 32767) :
    ∀ x ∈ chunkToFloat samples, -1 ≤ x ∧ x < 1 := by
  intro x hx
  simp only [chunkToFloat, List.mem_map] at hx
  obtain ⟨s, hs, rfl⟩ := hx
  obtain ⟨hlo, hhi⟩ := h s hs
  constructor
  · rw [pcm16ToFloat, le_div_iff₀ (by norm_num : (0 : Rat) < 32768)]
    calc (-1 : Rat) * 32768 = ((-32768 : Int) : Rat) := by norm_num
    _ ≤ (s : Rat) := by exact_mod_cast hlo
  · rw [pcm16ToFloat, div_lt_iff₀ (by norm_num : (0 : Rat) < 32768)]
    calc (s : Rat) ≤ ((32767 : Int) : Rat) := by exact_mod_cast hhi
    _ < 1 * 32768 := by norm_num

/-- Witness for C9 at the extreme sample -32768. -/
theorem pcm16_normalization_in_range_witness :
    -1 ≤ pcm16ToFloat (-32768) ∧ pcm16ToFloat (-32768) < 1 :=
  pcm16_normalization_in_range [-32768, 0, 32767] (by decide)
    (pcm16ToFloat (-32768)) (by simp [chunkToFloat])

/-- C10: in the capture loop's float-to-PCM16 conversion, a full-scale sample
at or above 1.0 wraps modulo 2^16 instead of saturating: on the whole range
from 1 inclusive to 2 exclusive the result is the truncation shifted down by
65536, hence negative and never the maximum 32767; in particular the input
1.0 maps to -32768. -/
theorem float_full_scale_wraps (x : Rat) (h1 : 1 ≤ x) (h2 : x < 2) :
    floatToPcm16 x = truncQ (x * 32768) - 65536 ∧
    floatToPcm16 x < 0 ∧ floatToPcm16 x ≠ 32767 ∧
    floatToPcm16 1 = -32768 := by
  have hx0 : (0 : Rat) ≤ x * 32768 := by nlinarith
  have htr : truncQ (x * 32768) = ⌊x * 32768⌋ := if_pos hx0
  have hv1 : (32768 : Int) ≤ ⌊x * 32768⌋ := by
    apply Int.le_floor.mpr
    push_cast
    nlinarith
  have hv2 : ⌊x * 32768⌋ < (65536 : Int) := by
    apply Int.floor_lt.mpr
    push_cast
    nlinarith
  have key : (⌊x * 32768⌋ + 32768) % 65536 = ⌊x * 32768⌋ - 32768 := by
    have h65 : ⌊x * 32768⌋ + 32768 = (⌊x * 32768⌋ - 32768) + 65536 * 1 := by ring
    rw [h65, Int.add_mul_emod_self_left]
    exact Int.emod_eq_of_lt (by omega) (by omega)
  have hmain : floatToPcm16 x = truncQ (x * 32768) - 65536 := by
    rw [floatToPcm16, htr, wrap16, key]
    omega
  refine ⟨hmain, ?_, ?_, ?_⟩
  · rw [hmain, htr]; omega
  · rw [hmain, htr]; omega
  · norm_num [floatToPcm16, wrap16, truncQ]

/-- Witness for C10 at the full-scale sample 1.0. -/
theorem float_full_scale_wraps_witness :
    floatToPcm16 1 = truncQ (1 * 32768) - 65536 ∧
    floatToPcm16 1 < 0 ∧ floatToPcm16 1 ≠ 32767 ∧
    floatToPcm16 1 = -32768 :=
  float_full_scale_wraps 1 (le_refl 1) one_lt_two
